import Mathlib

/-!
Shallow embedding of the diffusion schedule engine and supporting numeric
utilities of the repository (schedule builders, forward sampler, RNG /
Box-Muller normal sampler, kernel density estimator, seeded permutation
shuffle), together with theorems settling the specification claims.

Floating-point programs are embedded in exact arithmetic: values that the
code manipulates only with field operations, `min`/`max`, `floor` and
integer bit operations are modelled over `ℚ`/`ℕ`; values flowing through
`sqrt`, `cos`, `exp`, `log` are modelled over `ℝ`.
-/

namespace Remotion

/-- The cumulative product `acc *= (1 - b); out.push(acc)` loop shared by the
linear / quadratic / sigmoid schedule builders. -/
def prodAcc {α : Type} [CommRing α] (acc : α) : List α → List α
  | [] => []
  | b :: bs => (acc * (1 - b)) :: prodAcc (acc * (1 - b)) bs

/-- Betas of `makeAlphaBarLinear`:
`min(0.999, betaStart + (i / max(1, T-1)) * (betaEnd - betaStart))`
with `betaStart = 1e-4`, `betaEnd = 0.2`. -/
noncomputable def linearBetas (T : ℕ) : List ℝ :=
  (List.range T).map fun (i : ℕ) =>
    min 0.999 (1e-4 + ((i : ℝ) / ((max 1 (T - 1) : ℕ) : ℝ)) * (0.2 - 1e-4))

/-- `makeAlphaBarLinear` from the source: accumulate `acc *= (1 - b)`. -/
noncomputable def makeAlphaBarLinear (T : ℕ) : List ℝ :=
  prodAcc 1 (linearBetas T)

/-- The function `f(t) = cos(((t/T + s)/(1 + s)) * (PI/2))^2`, `s = 0.008`,
of `makeAlphaBarCosine`. -/
noncomputable def cosSq (T : ℕ) (u : ℝ) : ℝ :=
  Real.cos (((u / (T : ℝ) + 0.008) / (1 + 0.008)) * (Real.pi / 2)) ^ 2

/-- `makeAlphaBarCosine` from the source: `out[i] = f(i) / f(0)`. -/
noncomputable def makeAlphaBarCosine (T : ℕ) : List ℝ :=
  (List.range T).map fun (i : ℕ) => cosSq T (i : ℝ) / cosSq T 0

/-- Betas of `makeAlphaBarQuadratic`: `r = i / max(1, T-1)`,
`min(0.999, betaMin + r*r*(betaMax - betaMin))`, `betaMin = 1e-4`,
`betaMax = 0.35`. -/
noncomputable def quadraticBetas (T : ℕ) : List ℝ :=
  (List.range T).map fun (i : ℕ) =>
    let r : ℝ := (i : ℝ) / ((max 1 (T - 1) : ℕ) : ℝ)
    min 0.999 (1e-4 + r * r * (0.35 - 1e-4))

/-- `makeAlphaBarQuadratic` from the source. -/
noncomputable def makeAlphaBarQuadratic (T : ℕ) : List ℝ :=
  prodAcc 1 (quadraticBetas T)

/-- Betas of `makeAlphaBarSigmoid`: `x = i / max(1, T-1)`,
`sig = 1 / (1 + exp(-(x - 0.5) * k))`, `k = 8`,
`min(0.999, betaMin + sig * (betaMax - betaMin))`, `betaMin = 1e-4`,
`betaMax = 0.3`. -/
noncomputable def sigmoidBetas (T : ℕ) : List ℝ :=
  (List.range T).map fun (i : ℕ) =>
    let x : ℝ := (i : ℝ) / ((max 1 (T - 1) : ℕ) : ℝ)
    let sig : ℝ := 1 / (1 + Real.exp (-(x - 0.5) * 8))
    min 0.999 (1e-4 + sig * (0.3 - 1e-4))

/-- `makeAlphaBarSigmoid` from the source. -/
noncomputable def makeAlphaBarSigmoid (T : ℕ) : List ℝ :=
  prodAcc 1 (sigmoidBetas T)

/-- The `ALL_SCHEDULERS` table (id and builder; labels are view glue). -/
noncomputable def ALL_SCHEDULERS : List (String × (ℕ → List ℝ)) :=
  [("linear", makeAlphaBarLinear),
   ("cosine", makeAlphaBarCosine),
   ("quadratic", makeAlphaBarQuadratic),
   ("sigmoid", makeAlphaBarSigmoid)]

/-- The schedule selection in `ImageForwardComposition`:
`find` the scheduler by id, fall back to `makeAlphaBarLinear`; the chosen
builder is applied to `Math.max(2, steps)`. -/
noncomputable def selectAlphaBar (scheduler : String) (steps : ℕ) : List ℝ :=
  match ALL_SCHEDULERS.find? fun p => p.1 == scheduler with
  | some found => found.2 (max 2 steps)
  | none => makeAlphaBarLinear (max 2 steps)

/-- The interpolated schedule lookup:
`k = max(0, min(steps - 2, floor(tPos)))`,
`frac = max(0, min(1, tPos - k))`,
`ab = alphaBar[k] + (alphaBar[k+1] - alphaBar[k]) * frac`,
where `steps` is the schedule length. -/
noncomputable def alphaBarAt (sched : List ℝ) (t : ℝ) : ℝ :=
  let k : ℤ := max 0 (min ((sched.length : ℤ) - 2) ⌊t⌋)
  let frac : ℝ := max 0 (min 1 (t - (k : ℝ)))
  sched.getD k.toNat 0 + (sched.getD (k.toNat + 1) 0 - sched.getD k.toNat 0) * frac

/-- The forward sampler: `s1 = sqrt(max(1e-8, ab))`, `s2 = sqrt(max(0, 1 - ab))`,
`xt[i] = s1 * x0[i] + s2 * eps[i]`. -/
noncomputable def forwardSample (x0 eps : List ℝ) (ab : ℝ) : List ℝ :=
  List.zipWith
    (fun x e => Real.sqrt (max 1e-8 ab) * x + Real.sqrt (max 0 (1 - ab)) * e)
    x0 eps

/-! ### Generic facts about the `prodAcc` accumulation -/

theorem prodAcc_length {α : Type} [CommRing α] (acc : α) (bs : List α) :
    (prodAcc acc bs).length = bs.length := by
  induction bs generalizing acc with
  | nil => rfl
  | cons b bs ih => simp [prodAcc, ih]

theorem prodAcc_mem {acc : ℝ} {bs : List ℝ} (hacc : 0 < acc)
    (hb : ∀ b ∈ bs, 0 < b ∧ b ≤ 0.999) :
    ∀ x ∈ prodAcc acc bs, 0 < x ∧ x ≤ acc := by
  induction bs generalizing acc with
  | nil => simp [prodAcc]
  | cons b bs ih =>
    obtain ⟨hb0, hb1⟩ := hb b (by simp)
    have h1b : 0 < 1 - b := by linarith
    have hacc' : 0 < acc * (1 - b) := mul_pos hacc h1b
    have hle : acc * (1 - b) ≤ acc := by nlinarith
    intro x hx
    rcases List.mem_cons.mp hx with rfl | hx
    · exact ⟨hacc', hle⟩
    · have := ih hacc' (fun c hc => hb c (by simp [hc])) x hx
      exact ⟨this.1, this.2.trans hle⟩

theorem prodAcc_chain {acc : ℝ} {bs : List ℝ} (hacc : 0 < acc)
    (hb : ∀ b ∈ bs, 0 < b ∧ b ≤ 0.999) :
    List.Chain (· > ·) acc (prodAcc acc bs) := by
  induction bs generalizing acc with
  | nil => exact List.Chain.nil
  | cons b bs ih =>
    obtain ⟨hb0, hb1⟩ := hb b (by simp)
    have h1b : 0 < 1 - b := by linarith
    have hacc' : 0 < acc * (1 - b) := mul_pos hacc h1b
    have hlt : acc * (1 - b) < acc := by nlinarith
    exact List.Chain.cons hlt (ih hacc' fun c hc => hb c (by simp [hc]))

theorem chain_gt_getD {l : List ℝ} {a : ℝ} (h : List.Chain (· > ·) a l)
    {t : ℕ} (ht : t + 1 < l.length) : l.getD (t + 1) 0 < l.getD t 0 := by
  have h2 := (List.chain_iff_get.mp h).2 t (by omega)
  rw [List.getD_eq_getElem _ _ ht, List.getD_eq_getElem _ _ (show t < l.length by omega)]
  simpa using h2

/-! ### Bounds on the per-step betas of the three product-based schedules -/

theorem linearBetas_bounds (T : ℕ) :
    ∀ b ∈ linearBetas T, 1e-4 ≤ b ∧ b ≤ 0.999 := by
  intro b hb
  simp only [linearBetas, List.mem_map, List.mem_range] at hb
  obtain ⟨i, _, rfl⟩ := hb
  have hm : (0 : ℝ) < ((max 1 (T - 1) : ℕ) : ℝ) := by
    have : 1 ≤ max 1 (T - 1) := le_max_left _ _
    exact_mod_cast Nat.lt_of_lt_of_le Nat.zero_lt_one this
  have hr : (0 : ℝ) ≤ (i : ℝ) / ((max 1 (T - 1) : ℕ) : ℝ) :=
    div_nonneg (Nat.cast_nonneg i) hm.le
  refine ⟨le_min (by norm_num) ?_, min_le_left _ _⟩
  nlinarith

theorem quadraticBetas_bounds (T : ℕ) :
    ∀ b ∈ quadraticBetas T, 1e-4 ≤ b ∧ b ≤ 0.999 := by
  intro b hb
  simp only [quadraticBetas, List.mem_map, List.mem_range] at hb
  obtain ⟨i, _, rfl⟩ := hb
  have hm : (0 : ℝ) < ((max 1 (T - 1) : ℕ) : ℝ) := by
    have : 1 ≤ max 1 (T - 1) := le_max_left _ _
    exact_mod_cast Nat.lt_of_lt_of_le Nat.zero_lt_one this
  have hr : (0 : ℝ) ≤ (i : ℝ) / ((max 1 (T - 1) : ℕ) : ℝ) :=
    div_nonneg (Nat.cast_nonneg i) hm.le
  refine ⟨le_min (by norm_num) ?_, min_le_left _ _⟩
  nlinarith

theorem sigmoidBetas_bounds (T : ℕ) :
    ∀ b ∈ sigmoidBetas T, 1e-4 ≤ b ∧ b ≤ 0.999 := by
  intro b hb
  simp only [sigmoidBetas, List.mem_map, List.mem_range] at hb
  obtain ⟨i, _, rfl⟩ := hb
  set x : ℝ := (i : ℝ) / ((max 1 (T - 1) : ℕ) : ℝ) with hx
  have hexp : 0 < Real.exp (-(x - 0.5) * 8) := Real.exp_pos _
  have hsig : 0 < 1 / (1 + Real.exp (-(x - 0.5) * 8)) := by positivity
  refine ⟨le_min (by norm_num) ?_, min_le_left _ _⟩
  nlinarith

/-! ### The cosine schedule -/

theorem cosArg_mem (T : ℕ) (hT : 0 < T) {u : ℝ} (h0 : 0 ≤ u) (huT : u < T) :
    0 < ((u / (T : ℝ) + 0.008) / (1 + 0.008)) * (Real.pi / 2) ∧
      ((u / (T : ℝ) + 0.008) / (1 + 0.008)) * (Real.pi / 2) < Real.pi / 2 := by
  have hTpos : (0 : ℝ) < (T : ℝ) := by exact_mod_cast hT
  have hpi : 0 < Real.pi / 2 := by positivity
  have hfrac0 : 0 ≤ u / (T : ℝ) := div_nonneg h0 hTpos.le
  have hfrac1 : u / (T : ℝ) < 1 := (div_lt_one hTpos).mpr huT
  have ha0 : 0 < (u / (T : ℝ) + 0.008) / (1 + 0.008) := by positivity
  have ha1 : (u / (T : ℝ) + 0.008) / (1 + 0.008) < 1 := by
    rw [div_lt_one (by norm_num)]
    linarith
  constructor
  · positivity
  · calc ((u / (T : ℝ) + 0.008) / (1 + 0.008)) * (Real.pi / 2)
        < 1 * (Real.pi / 2) := by
          exact mul_lt_mul_of_pos_right ha1 hpi
    _ = Real.pi / 2 := one_mul _

theorem cosSq_pos (T : ℕ) (hT : 0 < T) {u : ℝ} (h0 : 0 ≤ u) (huT : u < T) :
    0 < cosSq T u := by
  obtain ⟨hl, hr⟩ := cosArg_mem T hT h0 huT
  have hc : 0 < Real.cos (((u / (T : ℝ) + 0.008) / (1 + 0.008)) * (Real.pi / 2)) := by
    apply Real.cos_pos_of_mem_Ioo
    constructor
    · have := Real.pi_pos
      linarith
    · exact hr
  exact pow_pos hc 2

theorem cosSq_anti (T : ℕ) (hT : 0 < T) {u v : ℝ} (h0 : 0 ≤ u) (huv : u ≤ v)
    (hvT : v < T) : cosSq T v ≤ cosSq T u := by
  have hu : 0 ≤ u := h0
  have hv0 : 0 ≤ v := h0.trans huv
  have huT : u < T := lt_of_le_of_lt huv hvT
  obtain ⟨hul, hur⟩ := cosArg_mem T hT hu huT
  obtain ⟨hvl, hvr⟩ := cosArg_mem T hT hv0 hvT
  have hTpos : (0 : ℝ) < (T : ℝ) := by exact_mod_cast hT
  have hpi : 0 < Real.pi / 2 := by positivity
  have harg : ((u / (T : ℝ) + 0.008) / (1 + 0.008)) * (Real.pi / 2)
      ≤ ((v / (T : ℝ) + 0.008) / (1 + 0.008)) * (Real.pi / 2) := by
    have h1 : u / (T : ℝ) ≤ v / (T : ℝ) :=
      div_le_div_of_nonneg_right huv hTpos.le
    have h2 : (u / (T : ℝ) + 0.008) / (1 + 0.008)
        ≤ (v / (T : ℝ) + 0.008) / (1 + 0.008) := by
      apply div_le_div_of_nonneg_right _ (by norm_num)
      linarith
    exact mul_le_mul_of_nonneg_right h2 hpi.le
  have hcos : Real.cos (((v / (T : ℝ) + 0.008) / (1 + 0.008)) * (Real.pi / 2))
      ≤ Real.cos (((u / (T : ℝ) + 0.008) / (1 + 0.008)) * (Real.pi / 2)) := by
    apply Real.cos_le_cos_of_nonneg_of_le_pi hul.le _ harg
    have := Real.pi_pos
    linarith
  have hvnn : 0 ≤ Real.cos (((v / (T : ℝ) + 0.008) / (1 + 0.008)) * (Real.pi / 2)) := by
    apply Real.cos_nonneg_of_mem_Icc
    constructor
    · have := Real.pi_pos
      linarith
    · exact hvr.le
  exact pow_le_pow_left₀ hvnn hcos 2

/-- `getD` of a map over `List.range`. -/
theorem getD_map_range {f : ℕ → ℝ} {T i : ℕ} (h : i < T) :
    ((List.range T).map f).getD i 0 = f i := by
  rw [List.getD_eq_getElem _ _ (by simpa using h)]
  simp

/-! ### Claim C1: validity of the four schedules -/

/-- A schedule of length `T` whose values are in `(0, 1]` and non-increasing. -/
def ValidSchedule (l : List ℝ) (T : ℕ) : Prop :=
  l.length = T ∧ (∀ x ∈ l, 0 < x ∧ x ≤ 1) ∧
    ∀ t, t + 1 < l.length → l.getD (t + 1) 0 ≤ l.getD t 0

theorem prodSchedule_strict {bs : List ℝ}
    (hb : ∀ b ∈ bs, 1e-4 ≤ b ∧ b ≤ 0.999) :
    ∀ t, t + 1 < (prodAcc 1 bs).length →
      (prodAcc 1 bs).getD (t + 1) 0 < (prodAcc 1 bs).getD t 0 := by
  intro t ht
  refine chain_gt_getD (prodAcc_chain one_pos fun b hbmem => ?_) ht
  obtain ⟨h1, h2⟩ := hb b hbmem
  exact ⟨by linarith, h2⟩

theorem prodSchedule_valid {bs : List ℝ}
    (hb : ∀ b ∈ bs, 1e-4 ≤ b ∧ b ≤ 0.999) :
    ValidSchedule (prodAcc 1 bs) bs.length := by
  refine ⟨prodAcc_length 1 bs, ?_, ?_⟩
  · intro x hx
    exact prodAcc_mem one_pos
      (fun b hbmem => ⟨by linarith [(hb b hbmem).1], (hb b hbmem).2⟩) x hx
  · intro t ht
    exact (prodSchedule_strict hb t ht).le

theorem cosineSchedule_valid (T : ℕ) (hT : 2 ≤ T) :
    ValidSchedule (makeAlphaBarCosine T) T := by
  have hT0 : 0 < T := by omega
  have hT0R : (0 : ℝ) < (T : ℝ) := by exact_mod_cast hT0
  refine ⟨by simp [makeAlphaBarCosine], ?_, ?_⟩
  · intro x hx
    obtain ⟨i, hi, rfl⟩ := List.mem_map.mp hx
    have hiT : i < T := List.mem_range.mp hi
    have hiR : (i : ℝ) < (T : ℝ) := by exact_mod_cast hiT
    have hpos0 : 0 < cosSq T 0 := cosSq_pos T hT0 le_rfl hT0R
    have hposi : 0 < cosSq T (i : ℝ) := cosSq_pos T hT0 (Nat.cast_nonneg i) hiR
    constructor
    · exact div_pos hposi hpos0
    · rw [div_le_one hpos0]
      exact cosSq_anti T hT0 le_rfl (Nat.cast_nonneg i) hiR
  · intro t ht
    have hlen : (makeAlphaBarCosine T).length = T := by simp [makeAlphaBarCosine]
    rw [hlen] at ht
    have h1 : ((List.range T).map fun (i : ℕ) => cosSq T (i : ℝ) / cosSq T 0).getD (t + 1) 0
        = cosSq T ((t + 1 : ℕ) : ℝ) / cosSq T 0 := getD_map_range ht
    have h2 : ((List.range T).map fun (i : ℕ) => cosSq T (i : ℝ) / cosSq T 0).getD t 0
        = cosSq T (t : ℝ) / cosSq T 0 := getD_map_range (by omega)
    show ((List.range T).map fun (i : ℕ) => cosSq T (i : ℝ) / cosSq T 0).getD (t + 1) 0
        ≤ ((List.range T).map fun (i : ℕ) => cosSq T (i : ℝ) / cosSq T 0).getD t 0
    rw [h1, h2]
    have hpos0 : 0 < cosSq T 0 := cosSq_pos T hT0 le_rfl hT0R
    apply div_le_div_of_nonneg_right _ hpos0.le
    have htR : ((t + 1 : ℕ) : ℝ) < (T : ℝ) := by exact_mod_cast ht
    have : (t : ℝ) ≤ ((t + 1 : ℕ) : ℝ) := by push_cast; linarith
    exact cosSq_anti T hT0 (Nat.cast_nonneg t) this htR

theorem makeAlphaBarLinear_length (T : ℕ) : (makeAlphaBarLinear T).length = T := by
  simp [makeAlphaBarLinear, prodAcc_length, linearBetas]

theorem makeAlphaBarQuadratic_length (T : ℕ) :
    (makeAlphaBarQuadratic T).length = T := by
  simp [makeAlphaBarQuadratic, prodAcc_length, quadraticBetas]

theorem makeAlphaBarSigmoid_length (T : ℕ) :
    (makeAlphaBarSigmoid T).length = T := by
  simp [makeAlphaBarSigmoid, prodAcc_length, sigmoidBetas]

/-- C1: for every T ≥ 2, each of the four schedule builders returns a
sequence of exactly T values, every value in (0, 1], non-increasing. -/
theorem claim_C1_schedules_valid (T : ℕ) (hT : 2 ≤ T) :
    ValidSchedule (makeAlphaBarLinear T) T ∧
      ValidSchedule (makeAlphaBarCosine T) T ∧
      ValidSchedule (makeAlphaBarQuadratic T) T ∧
      ValidSchedule (makeAlphaBarSigmoid T) T := by
  refine ⟨?_, cosineSchedule_valid T hT, ?_, ?_⟩
  · have h := prodSchedule_valid (linearBetas_bounds T)
    rwa [show (linearBetas T).length = T by simp [linearBetas]] at h
  · have h := prodSchedule_valid (quadraticBetas_bounds T)
    rwa [show (quadraticBetas T).length = T by simp [quadraticBetas]] at h
  · have h := prodSchedule_valid (sigmoidBetas_bounds T)
    rwa [show (sigmoidBetas T).length = T by simp [sigmoidBetas]] at h

/-- Witness for C1 at T = 2. -/
theorem claim_C1_witness :
    2 ≤ 2 ∧
      (ValidSchedule (makeAlphaBarLinear 2) 2 ∧
        ValidSchedule (makeAlphaBarCosine 2) 2 ∧
        ValidSchedule (makeAlphaBarQuadratic 2) 2 ∧
        ValidSchedule (makeAlphaBarSigmoid 2) 2) :=
  ⟨le_refl 2, claim_C1_schedules_valid 2 (le_refl 2)⟩

/-! ### First elements of the product-based schedules (claim C10) -/

theorem prodAcc_head {acc : ℝ} {bs : List ℝ} (h : 0 < bs.length) :
    (prodAcc acc bs).getD 0 0 = acc * (1 - bs.getD 0 0) := by
  cases bs with
  | nil => simp at h
  | cons b bs => simp [prodAcc]

theorem linearBetas_head (T : ℕ) (hT : 0 < T) : (linearBetas T).getD 0 0 = 1e-4 := by
  show ((List.range T).map _).getD 0 0 = _
  rw [getD_map_range hT]
  norm_num

theorem quadraticBetas_head (T : ℕ) (hT : 0 < T) :
    (quadraticBetas T).getD 0 0 = 1e-4 := by
  show ((List.range T).map _).getD 0 0 = _
  rw [getD_map_range hT]
  norm_num

theorem sigmoidBetas_head_gt (T : ℕ) (hT : 0 < T) :
    1e-4 < (sigmoidBetas T).getD 0 0 ∧ (sigmoidBetas T).getD 0 0 ≤ 0.999 := by
  have h0 : (sigmoidBetas T).getD 0 0 =
      (let x : ℝ := ((0 : ℕ) : ℝ) / ((max 1 (T - 1) : ℕ) : ℝ)
       let sig : ℝ := 1 / (1 + Real.exp (-(x - 0.5) * 8))
       min 0.999 (1e-4 + sig * (0.3 - 1e-4))) := getD_map_range hT
  simp only [Nat.cast_zero, zero_div] at h0
  rw [h0]
  have hexp : 0 < Real.exp (-((0 : ℝ) - 0.5) * 8) := Real.exp_pos _
  have hsig0 : 0 < 1 / (1 + Real.exp (-((0 : ℝ) - 0.5) * 8)) := by positivity
  have hsig1 : 1 / (1 + Real.exp (-((0 : ℝ) - 0.5) * 8)) ≤ 1 := by
    rw [div_le_one (by positivity)]
    linarith
  constructor
  · rw [lt_min_iff]
    constructor
    · norm_num
    · nlinarith
  · exact min_le_left _ _

/-- Counterexample for C10 as frozen: the first element of the sigmoid
schedule is not `1 - 1e-4 = 0.9999` (its beta 0 exceeds 1e-4). -/
theorem claim_C10_counterexample :
    (makeAlphaBarSigmoid 2).getD 0 0 ≠ 0.9999 := by
  have hlen : 0 < (sigmoidBetas 2).length := by simp [sigmoidBetas]
  have h := @prodAcc_head 1 (sigmoidBetas 2) hlen
  obtain ⟨hgt, hle⟩ := sigmoidBetas_head_gt 2 (by norm_num)
  have : (makeAlphaBarSigmoid 2).getD 0 0 < 0.9999 := by
    rw [makeAlphaBarSigmoid, h]
    nlinarith
  exact ne_of_lt this

/-- C10 (amended): for T ≥ 2 the three product-based schedules are strictly
decreasing, every per-step beta is at least 1e-4, and the first element is
`1 - beta_0`; this equals 0.9999 for linear and quadratic, while for sigmoid
`beta_0 > 1e-4` and the first element is strictly below 0.9999. -/
theorem claim_C10_amended (T : ℕ) (hT : 2 ≤ T) :
    (∀ b ∈ linearBetas T, 1e-4 ≤ b) ∧ (∀ b ∈ quadraticBetas T, 1e-4 ≤ b) ∧
      (∀ b ∈ sigmoidBetas T, 1e-4 ≤ b) ∧
      (∀ t, t + 1 < T →
        (makeAlphaBarLinear T).getD (t + 1) 0 < (makeAlphaBarLinear T).getD t 0 ∧
        (makeAlphaBarQuadratic T).getD (t + 1) 0 < (makeAlphaBarQuadratic T).getD t 0 ∧
        (makeAlphaBarSigmoid T).getD (t + 1) 0 < (makeAlphaBarSigmoid T).getD t 0) ∧
      (makeAlphaBarLinear T).getD 0 0 = 1 - (linearBetas T).getD 0 0 ∧
      (makeAlphaBarQuadratic T).getD 0 0 = 1 - (quadraticBetas T).getD 0 0 ∧
      (makeAlphaBarSigmoid T).getD 0 0 = 1 - (sigmoidBetas T).getD 0 0 ∧
      (makeAlphaBarLinear T).getD 0 0 = 0.9999 ∧
      (makeAlphaBarQuadratic T).getD 0 0 = 0.9999 ∧
      (makeAlphaBarSigmoid T).getD 0 0 < 0.9999 := by
  have hT0 : 0 < T := by omega
  have hlinlen : 0 < (linearBetas T).length := by simp [linearBetas]; omega
  have hquadlen : 0 < (quadraticBetas T).length := by simp [quadraticBetas]; omega
  have hsiglen : 0 < (sigmoidBetas T).length := by simp [sigmoidBetas]; omega
  refine ⟨fun b hb => (linearBetas_bounds T b hb).1,
    fun b hb => (quadraticBetas_bounds T b hb).1,
    fun b hb => (sigmoidBetas_bounds T b hb).1, ?_, ?_, ?_, ?_, ?_, ?_, ?_⟩
  · intro t ht
    refine ⟨?_, ?_, ?_⟩
    · exact prodSchedule_strict (linearBetas_bounds T) t
        (by rwa [show (prodAcc 1 (linearBetas T)).length = T by
          rw [prodAcc_length]; simp [linearBetas]])
    · exact prodSchedule_strict (quadraticBetas_bounds T) t
        (by rwa [show (prodAcc 1 (quadraticBetas T)).length = T by
          rw [prodAcc_length]; simp [quadraticBetas]])
    · exact prodSchedule_strict (sigmoidBetas_bounds T) t
        (by rwa [show (prodAcc 1 (sigmoidBetas T)).length = T by
          rw [prodAcc_length]; simp [sigmoidBetas]])
  · rw [makeAlphaBarLinear, prodAcc_head hlinlen, one_mul]
  · rw [makeAlphaBarQuadratic, prodAcc_head hquadlen, one_mul]
  · rw [makeAlphaBarSigmoid, prodAcc_head hsiglen, one_mul]
  · rw [makeAlphaBarLinear, prodAcc_head hlinlen, one_mul, linearBetas_head T hT0]
    norm_num
  · rw [makeAlphaBarQuadratic, prodAcc_head hquadlen, one_mul,
      quadraticBetas_head T hT0]
    norm_num
  · rw [makeAlphaBarSigmoid, prodAcc_head hsiglen, one_mul]
    have := (sigmoidBetas_head_gt T hT0).1
    linarith

/-- Witness for the amended C10 at T = 2. -/
theorem claim_C10_witness :
    2 ≤ 2 ∧ (makeAlphaBarLinear 2).getD 0 0 = 0.9999 :=
  ⟨le_refl 2, (claim_C10_amended 2 (le_refl 2)).2.2.2.2.2.2.2.1⟩

/-! ### Claim C5: concrete values at T = 100 -/

theorem list_prod_nonneg {l : List ℝ} (h : ∀ x ∈ l, 0 ≤ x) : 0 ≤ l.prod := by
  induction l with
  | nil => simp
  | cons a l ih =>
    rw [List.prod_cons]
    exact mul_nonneg (h a (by simp)) (ih fun x hx => h x (by simp [hx]))

theorem list_prod_le_pow {l : List ℝ} {c : ℝ} (hc : 0 ≤ c)
    (h : ∀ x ∈ l, 0 ≤ x ∧ x ≤ c) : l.prod ≤ c ^ l.length := by
  induction l with
  | nil => simp
  | cons a l ih =>
    rw [List.prod_cons, List.length_cons, pow_succ, mul_comm (c ^ l.length) c]
    obtain ⟨ha0, hac⟩ := h a (by simp)
    have hl := ih fun x hx => h x (by simp [hx])
    have hp0 : 0 ≤ l.prod := list_prod_nonneg fun x hx => (h x (by simp [hx])).1
    exact mul_le_mul hac hl hp0 hc

theorem prodAcc_getD_eq_prod {acc : ℝ} {bs : List ℝ} {t : ℕ} (h : t < bs.length) :
    (prodAcc acc bs).getD t 0 =
      acc * ((bs.take (t + 1)).map (fun b => 1 - b)).prod := by
  induction bs generalizing acc t with
  | nil => simp at h
  | cons b bs ih =>
    cases t with
    | zero => simp [prodAcc]
    | succ t =>
      have ht : t < bs.length := by simpa using h
      have := @ih (acc * (1 - b)) t ht
      simp only [prodAcc, List.getD_cons_succ, List.take_succ_cons, List.map_cons,
        List.prod_cons]
      rw [this]
      ring

/-- C5: the first element of the cosine schedule at T = 100 is within 1e-6 of 1,
and element 99 of the linear schedule at T = 100 is below 0.01. -/
theorem claim_C5_concrete_values :
    |(makeAlphaBarCosine 100).getD 0 0 - 1| ≤ 1e-6 ∧
      (makeAlphaBarLinear 100).getD 99 0 < 0.01 := by
  constructor
  · have h0 : (makeAlphaBarCosine 100).getD 0 0 = cosSq 100 ((0 : ℕ) : ℝ) / cosSq 100 0 :=
      getD_map_range (by norm_num)
    have hpos : 0 < cosSq 100 0 := cosSq_pos 100 (by norm_num) le_rfl (by norm_num)
    rw [h0, Nat.cast_zero, div_self (ne_of_gt hpos)]
    norm_num
  · have hlen : (linearBetas 100).length = 100 := by simp [linearBetas]
    have h99 : (makeAlphaBarLinear 100).getD 99 0 =
        1 * (((linearBetas 100).take 100).map (fun b => 1 - b)).prod := by
      rw [makeAlphaBarLinear]
      exact prodAcc_getD_eq_prod (by rw [hlen]; norm_num)
    have htake : (linearBetas 100).take 100 = linearBetas 100 :=
      List.take_of_length_le (by rw [hlen])
    rw [h99, one_mul, htake]
    have hsplit : (100 : ℕ) = 50 + 50 := by norm_num
    rw [linearBetas, List.map_map, hsplit, List.range_add, List.map_append,
      List.prod_append]
    have hb1 : ∀ x ∈ (List.range 50).map
        ((fun b => 1 - b) ∘ fun (i : ℕ) =>
          min 0.999 (1e-4 + ((i : ℝ) / ((max 1 (50 + 50 - 1) : ℕ) : ℝ)) * (0.2 - 1e-4))),
        0 ≤ x ∧ x ≤ 1 := by
      intro x hx
      obtain ⟨i, _, rfl⟩ := List.mem_map.mp hx
      have hi0 : (0 : ℝ) ≤ (i : ℝ) / ((max 1 (50 + 50 - 1) : ℕ) : ℝ) :=
        div_nonneg (Nat.cast_nonneg i) (Nat.cast_nonneg _)
      simp only [Function.comp]
      constructor
      · have : min 0.999 (1e-4 + ((i : ℝ) / ((max 1 (50 + 50 - 1) : ℕ) : ℝ)) * (0.2 - 1e-4))
            ≤ 0.999 := min_le_left _ _
        linarith
      · have : (1e-4 : ℝ)
            ≤ min 0.999 (1e-4 + ((i : ℝ) / ((max 1 (50 + 50 - 1) : ℕ) : ℝ)) * (0.2 - 1e-4)) := by
          refine le_min (by norm_num) ?_
          nlinarith
        linarith
    have hb2 : ∀ x ∈ ((List.range 50).map (50 + ·)).map
        ((fun b => 1 - b) ∘ fun (i : ℕ) =>
          min 0.999 (1e-4 + ((i : ℝ) / ((max 1 (50 + 50 - 1) : ℕ) : ℝ)) * (0.2 - 1e-4))),
        0 ≤ x ∧ x ≤ 0.899 := by
      intro x hx
      obtain ⟨j, hj, rfl⟩ := List.mem_map.mp hx
      obtain ⟨i, _, rfl⟩ := List.mem_map.mp hj
      have hden : ((max 1 (50 + 50 - 1) : ℕ) : ℝ) = 99 := by norm_num
      have hi0 : (0 : ℝ) ≤ (i : ℝ) := Nat.cast_nonneg i
      have hcast : ((50 + i : ℕ) : ℝ) = 50 + (i : ℝ) := by push_cast; ring
      simp only [Function.comp, hden, hcast]
      have hfrac : (50 : ℝ) / 99 ≤ (50 + (i : ℝ)) / 99 := by
        apply div_le_div_of_nonneg_right _ (by norm_num)
        linarith
      constructor
      · have : min 0.999 (1e-4 + ((50 + (i : ℝ)) / 99) * (0.2 - 1e-4)) ≤ 0.999 :=
          min_le_left _ _
        linarith
      · have hX : (0.101 : ℝ) ≤ 1e-4 + ((50 + (i : ℝ)) / 99) * (0.2 - 1e-4) := by
          nlinarith
        have : (0.101 : ℝ) ≤ min 0.999 (1e-4 + ((50 + (i : ℝ)) / 99) * (0.2 - 1e-4)) :=
          le_min (by norm_num) hX
        linarith
    have hp1 : ((List.range 50).map
        ((fun b => 1 - b) ∘ fun (i : ℕ) =>
          min 0.999 (1e-4 + ((i : ℝ) / ((max 1 (50 + 50 - 1) : ℕ) : ℝ)) * (0.2 - 1e-4)))).prod
        ≤ 1 := by
      have h := list_prod_le_pow (c := 1) (by norm_num) hb1
      simpa using h
    have hp1nn : 0 ≤ ((List.range 50).map
        ((fun b => 1 - b) ∘ fun (i : ℕ) =>
          min 0.999 (1e-4 + ((i : ℝ) / ((max 1 (50 + 50 - 1) : ℕ) : ℝ)) * (0.2 - 1e-4)))).prod :=
      list_prod_nonneg fun x hx => (hb1 x hx).1
    have hp2 : (((List.range 50).map (50 + ·)).map
        ((fun b => 1 - b) ∘ fun (i : ℕ) =>
          min 0.999 (1e-4 + ((i : ℝ) / ((max 1 (50 + 50 - 1) : ℕ) : ℝ)) * (0.2 - 1e-4)))).prod
        ≤ 0.899 ^ 50 := by
      have h := list_prod_le_pow (c := 0.899) (by norm_num) hb2
      simpa using h
    have hp2nn : 0 ≤ (((List.range 50).map (50 + ·)).map
        ((fun b => 1 - b) ∘ fun (i : ℕ) =>
          min 0.999 (1e-4 + ((i : ℝ) / ((max 1 (50 + 50 - 1) : ℕ) : ℝ)) * (0.2 - 1e-4)))).prod :=
      list_prod_nonneg fun x hx => (hb2 x hx).1
    have hpow : (0.899 : ℝ) ^ 50 < 0.01 := by norm_num
    nlinarith

/-! ### Claim C6: unknown scheduler ids fall back to the linear builder -/

/-- C6: for any scheduler id outside the four known ones, the selected
schedule is exactly the one selected for "linear". -/
theorem claim_C6_unknown_falls_back_to_linear (shape : String) (T : ℕ)
    (hT : 2 ≤ T)
    (h : shape ∉ (["linear", "cosine", "quadratic", "sigmoid"] : List String)) :
    selectAlphaBar shape T = selectAlphaBar ("linear") T := by
  simp only [List.mem_cons, List.not_mem_nil, or_false, not_or] at h
  obtain ⟨h1, h2, h3, h4⟩ := h
  rw [selectAlphaBar, selectAlphaBar, ALL_SCHEDULERS]
  rw [List.find?_cons_of_neg _ (by simpa using fun hh => h1 hh.symm),
    List.find?_cons_of_neg _ (by simpa using fun hh => h2 hh.symm),
    List.find?_cons_of_neg _ (by simpa using fun hh => h3 hh.symm),
    List.find?_cons_of_neg _ (by simpa using fun hh => h4 hh.symm),
    List.find?_cons_of_pos _ (by simp)]
  simp [List.find?_nil]

/-- Witness for C6: the unknown id "foo" at T = 2. -/
theorem claim_C6_witness :
    2 ≤ 2 ∧ "foo" ∉ (["linear", "cosine", "quadratic", "sigmoid"] : List String) ∧
      selectAlphaBar ("foo") 2 = selectAlphaBar ("linear") 2 :=
  ⟨le_refl 2, by decide,
    claim_C6_unknown_falls_back_to_linear ("foo") 2 (le_refl 2) (by decide)⟩

/-! ### Claims C2 and C4: the forward sampler -/

theorem forwardSample_length (x0 eps : List ℝ) (ab : ℝ)
    (hlen : x0.length = eps.length) :
    (forwardSample x0 eps ab).length = x0.length := by
  simp [forwardSample, hlen]

theorem forwardSample_getD (x0 eps : List ℝ) (ab : ℝ) (i : ℕ)
    (hlen : x0.length = eps.length) (hi : i < x0.length) :
    (forwardSample x0 eps ab).getD i 0 =
      Real.sqrt (max 1e-8 ab) * x0.getD i 0 +
        Real.sqrt (max 0 (1 - ab)) * eps.getD i 0 := by
  have hL : (forwardSample x0 eps ab).length = x0.length :=
    forwardSample_length x0 eps ab hlen
  have hiz : i < (forwardSample x0 eps ab).length := by rw [hL]; exact hi
  have hie : i < eps.length := hlen ▸ hi
  rw [List.getD_eq_getElem _ _ hiz, List.getD_eq_getElem _ _ hi,
    List.getD_eq_getElem _ _ hie]
  simp only [forwardSample]
  rw [List.getElem_zipWith]

/-- C2: each output component of the forward sampler is
`sqrt(max(ab, 1e-8)) * x0[i] + sqrt(max(1-ab, 0)) * eps[i]`, and both
square-root arguments are nonnegative (the first strictly positive) for
every `ab`, so no NaN can arise from a negative radicand. -/
theorem claim_C2_forward_sample_formula (x0 eps : List ℝ) (ab : ℝ) (i : ℕ)
    (hlen : x0.length = eps.length) (hi : i < x0.length) :
    (forwardSample x0 eps ab).length = x0.length ∧
      (forwardSample x0 eps ab).getD i 0 =
        Real.sqrt (max 1e-8 ab) * x0.getD i 0 +
          Real.sqrt (max 0 (1 - ab)) * eps.getD i 0 ∧
      0 < max 1e-8 ab ∧ 0 ≤ max 0 (1 - ab) :=
  ⟨forwardSample_length x0 eps ab hlen, forwardSample_getD x0 eps ab i hlen hi,
    lt_of_lt_of_le (by norm_num) (le_max_left _ _), le_max_left _ _⟩

/-- Witness for C2 at `x0 = [1]`, `eps = [2]`, `ab = 1/2`, `i = 0`. -/
theorem claim_C2_witness :
    ([(1 : ℝ)].length = [(2 : ℝ)].length ∧ 0 < [(1 : ℝ)].length) ∧
      (forwardSample [1] [2] (1/2)).length = [(1 : ℝ)].length ∧
      (forwardSample [1] [2] (1/2)).getD 0 0 =
        Real.sqrt (max 1e-8 (1/2)) * ([(1 : ℝ)]).getD 0 0 +
          Real.sqrt (max 0 (1 - 1/2)) * ([(2 : ℝ)]).getD 0 0 ∧
      0 < max (1e-8 : ℝ) (1/2) ∧ 0 ≤ max (0 : ℝ) (1 - 1/2) :=
  ⟨⟨rfl, by norm_num⟩,
    claim_C2_forward_sample_formula [1] [2] (1/2) 0 rfl (by norm_num)⟩

/-- Counterexample for C4 as frozen: at `ab = 0` with `x0 = [2]`, `eps = [0]`,
the output component differs from the eps component by `2e-4 > 1e-4`. -/
theorem claim_C4_counterexample :
    ¬ |(forwardSample [2] [0] 0).getD 0 0 - ([(0 : ℝ)]).getD 0 0| ≤ 1e-4 := by
  have h1 : max (1e-8 : ℝ) 0 = 1e-8 := max_eq_left (by norm_num)
  have h2 : max (0 : ℝ) (1 - 0) = 1 := by norm_num
  have hs : Real.sqrt 1e-8 = 1e-4 := by
    rw [show (1e-8 : ℝ) = (1e-4) ^ 2 by norm_num, Real.sqrt_sq (by norm_num)]
  simp only [forwardSample, List.zipWith_cons_cons, List.zipWith_nil_right,
    List.getD_cons_zero, h1, h2, hs, Real.sqrt_one]
  norm_num [abs_of_nonneg]

/-- C4 (amended): at `ab = 1` the output equals `x0` exactly; at `ab = 0` each
output component is `1e-4 * x0[i] + eps[i]`, hence within 1e-4 of `eps[i]`
whenever `|x0[i]| ≤ 1` (but not for arbitrary `x0`). -/
theorem claim_C4_amended (x0 eps : List ℝ) (i : ℕ)
    (hlen : x0.length = eps.length) (hi : i < x0.length) :
    (forwardSample x0 eps 1).getD i 0 = x0.getD i 0 ∧
      (forwardSample x0 eps 0).getD i 0 = 1e-4 * x0.getD i 0 + eps.getD i 0 ∧
      (|x0.getD i 0| ≤ 1 →
        |(forwardSample x0 eps 0).getD i 0 - eps.getD i 0| ≤ 1e-4) := by
  have hf1 := forwardSample_getD x0 eps 1 i hlen hi
  have hf0 := forwardSample_getD x0 eps 0 i hlen hi
  have e1 : max (1e-8 : ℝ) 1 = 1 := max_eq_right (by norm_num)
  have e2 : max (0 : ℝ) (1 - 1) = 0 := by norm_num
  have e3 : max (1e-8 : ℝ) 0 = 1e-8 := max_eq_left (by norm_num)
  have e4 : max (0 : ℝ) (1 - 0) = 1 := by norm_num
  have hs : Real.sqrt 1e-8 = 1e-4 := by
    rw [show (1e-8 : ℝ) = (1e-4) ^ 2 by norm_num, Real.sqrt_sq (by norm_num)]
  rw [e1, e2, Real.sqrt_one, Real.sqrt_zero] at hf1
  rw [e3, e4, hs, Real.sqrt_one] at hf0
  refine ⟨by rw [hf1]; ring, by rw [hf0]; ring, fun habs => ?_⟩
  rw [hf0, show 1e-4 * x0.getD i 0 + 1 * eps.getD i 0 - eps.getD i 0
      = 1e-4 * x0.getD i 0 by ring, abs_mul]
  rw [show |(1e-4 : ℝ)| = 1e-4 from abs_of_pos (by norm_num)]
  nlinarith [abs_nonneg (x0.getD i 0)]

/-- Witness for the amended C4 at `x0 = [1/2]`, `eps = [3]`, `i = 0`. -/
theorem claim_C4_witness :
    (([(1/2 : ℝ)]).length = ([(3 : ℝ)]).length ∧ 0 < ([(1/2 : ℝ)]).length) ∧
      (forwardSample [1/2] [3] 1).getD 0 0 = ([(1/2 : ℝ)]).getD 0 0 ∧
      (forwardSample [1/2] [3] 0).getD 0 0 =
        1e-4 * ([(1/2 : ℝ)]).getD 0 0 + ([(3 : ℝ)]).getD 0 0 ∧
      (|([(1/2 : ℝ)]).getD 0 0| ≤ 1 →
        |(forwardSample [1/2] [3] 0).getD 0 0 - ([(3 : ℝ)]).getD 0 0| ≤ 1e-4) :=
  ⟨⟨rfl, by norm_num⟩, claim_C4_amended [1/2] [3] 0 rfl (by norm_num)⟩

/-! ### Claim C3: the interpolated schedule lookup -/

/-- C3: for every schedule of length at least 2, the interpolated lookup at an
integer t returns schedule[t] exactly; at t + 0.5 (t+1 still in range) it
returns the midpoint, which lies strictly between schedule[t] and
schedule[t+1] whenever the two differ. -/
theorem claim_C3_interpolation (sched : List ℝ) (hlen : 2 ≤ sched.length) :
    (∀ t : ℕ, t < sched.length → alphaBarAt sched (t : ℝ) = sched.getD t 0) ∧
      (∀ t : ℕ, t + 1 < sched.length →
        alphaBarAt sched ((t : ℝ) + 1/2) =
          (sched.getD t 0 + sched.getD (t + 1) 0) / 2 ∧
        (sched.getD t 0 ≠ sched.getD (t + 1) 0 →
          min (sched.getD t 0) (sched.getD (t + 1) 0)
              < alphaBarAt sched ((t : ℝ) + 1/2) ∧
            alphaBarAt sched ((t : ℝ) + 1/2)
              < max (sched.getD t 0) (sched.getD (t + 1) 0))) := by
  constructor
  · intro t ht
    simp only [alphaBarAt, Int.floor_natCast]
    by_cases hc : (t : ℤ) ≤ (sched.length : ℤ) - 2
    · rw [show max 0 (min ((sched.length : ℤ) - 2) (t : ℤ)) = (t : ℤ) by omega,
        show ((t : ℤ)).toNat = t by simp,
        show (t : ℝ) - (((t : ℤ) : ℤ) : ℝ) = 0 by push_cast; ring]
      norm_num
    · have h1 : t + 1 = sched.length := by omega
      rw [show max 0 (min ((sched.length : ℤ) - 2) (t : ℤ))
            = (sched.length : ℤ) - 2 by omega,
        show (((sched.length : ℤ) - 2)).toNat = sched.length - 2 by omega,
        show sched.length - 2 + 1 = t by omega]
      have hcast : ((t : ℕ) : ℝ) + 1 = (sched.length : ℝ) := by exact_mod_cast h1
      rw [show (t : ℝ) - (((sched.length : ℤ) - 2 : ℤ) : ℝ) = 1 by push_cast; linarith]
      rw [show max 0 (min 1 (1 : ℝ)) = 1 by norm_num]
      ring
  · intro t ht
    have heq : alphaBarAt sched ((t : ℝ) + 1/2)
        = (sched.getD t 0 + sched.getD (t + 1) 0) / 2 := by
      simp only [alphaBarAt]
      rw [show ⌊(t : ℝ) + 1/2⌋ = (t : ℤ) by
          rw [Int.floor_eq_iff] <;> constructor <;> push_cast <;> linarith,
        show max 0 (min ((sched.length : ℤ) - 2) (t : ℤ)) = (t : ℤ) by omega,
        show ((t : ℤ)).toNat = t by simp,
        show (t : ℝ) + 1/2 - (((t : ℤ) : ℤ) : ℝ) = 1/2 by push_cast; ring,
        show max 0 (min 1 (1/2 : ℝ)) = 1/2 by norm_num]
      ring
    refine ⟨heq, fun hne => ?_⟩
    rw [heq]
    rcases lt_or_gt_of_ne hne with h | h
    · rw [min_eq_left h.le, max_eq_right h.le]
      constructor <;> linarith
    · rw [min_eq_right h.le, max_eq_left h.le]
      constructor <;> linarith

/-- Witness for C3 on the schedule `[1, 1/2]`. -/
theorem claim_C3_witness :
    2 ≤ ([(1 : ℝ), 1/2]).length ∧
      (∀ t : ℕ, t < ([(1 : ℝ), 1/2]).length →
        alphaBarAt [(1 : ℝ), 1/2] (t : ℝ) = ([(1 : ℝ), 1/2]).getD t 0) :=
  ⟨by norm_num, (claim_C3_interpolation [(1 : ℝ), 1/2] (by norm_num)).1⟩

/-! ### Claim C9: the kernel density estimator -/

/-- The `kde` function from the source:
`n = data.length || 1`; `mean = (Σ data[i]) / n`;
`v = (Σ (data[i]-mean)^2) / max(1, n-1)`; `std = sqrt(max(1e-6, v))`;
`h = 1.06 * std * n^(-1/5)`; `inv = 1 / (sqrt(2π) * h * n)`;
`ys[j] = inv * Σ_i exp(-0.5 * z*z)` with `z = (grid[j] - data[i]) / h`. -/
noncomputable def kde (data : List ℝ) (grid : List ℝ) : List ℝ :=
  let n : ℕ := max data.length 1
  let mean : ℝ := (((List.range n).map fun (i : ℕ) => data.getD i 0).sum) / (n : ℝ)
  let v : ℝ :=
    (((List.range n).map fun (i : ℕ) =>
      (data.getD i 0 - mean) * (data.getD i 0 - mean)).sum) / ((max 1 (n - 1) : ℕ) : ℝ)
  let std : ℝ := Real.sqrt (max 1e-6 v)
  let h : ℝ := 1.06 * std * (n : ℝ) ^ (-(1/5) : ℝ)
  let inv : ℝ := 1 / (Real.sqrt (2 * Real.pi) * h * (n : ℝ))
  grid.map fun x =>
    inv * (((List.range n).map fun (i : ℕ) =>
      Real.exp (-(0.5) * (((x - data.getD i 0) / h) * ((x - data.getD i 0) / h)))).sum)

theorem list_range_map_sum (f : ℕ → ℝ) (n : ℕ) :
    ((List.range n).map f).sum = ∑ i ∈ Finset.range n, f i := by
  induction n with
  | zero => simp
  | succ n ih =>
    rw [List.range_succ, List.map_append, List.sum_append, Finset.sum_range_succ, ih]
    simp

/-- C9: for non-empty data, `kde` returns one value per grid point, equal to
`(1/(sqrt(2π)·h·n)) · Σ_i exp(-((x - data[i])/h)²/2)` with Silverman bandwidth
`h = 1.06·σ·n^(-1/5)`, where σ² is the (n-1)-denominator sample variance
floored at 1e-6. -/
theorem claim_C9_kde_formula (data grid : List ℝ) (hd : data ≠ []) :
    (kde data grid).length = grid.length ∧
      ∀ j, j < grid.length →
        (kde data grid).getD j 0 =
          (1 / (Real.sqrt (2 * Real.pi)
              * (1.06 * Real.sqrt (max 1e-6
                  ((∑ i ∈ Finset.range data.length,
                      (data.getD i 0
                        - (∑ i ∈ Finset.range data.length, data.getD i 0)
                            / (data.length : ℝ)) ^ 2)
                    / ((max 1 (data.length - 1) : ℕ) : ℝ)))
                * (data.length : ℝ) ^ (-(1/5) : ℝ))
              * (data.length : ℝ)))
            * ∑ i ∈ Finset.range data.length,
                Real.exp (-(1/2) * ((grid.getD j 0 - data.getD i 0)
                  / (1.06 * Real.sqrt (max 1e-6
                      ((∑ i ∈ Finset.range data.length,
                          (data.getD i 0
                            - (∑ i ∈ Finset.range data.length, data.getD i 0)
                                / (data.length : ℝ)) ^ 2)
                        / ((max 1 (data.length - 1) : ℕ) : ℝ)))
                    * (data.length : ℝ) ^ (-(1/5) : ℝ))) ^ 2) := by
  have hn : max data.length 1 = data.length := by
    have : 1 ≤ data.length := List.length_pos.mpr hd
    omega
  constructor
  · simp [kde]
  · intro j hj
    have hmap : (kde data grid).getD j 0 =
        (fun x =>
          (1 / (Real.sqrt (2 * Real.pi)
              * (1.06 * Real.sqrt (max 1e-6
                  ((((List.range (max data.length 1)).map fun (i : ℕ) =>
                      (data.getD i 0
                        - (((List.range (max data.length 1)).map fun (i : ℕ) =>
                            data.getD i 0).sum) / ((max data.length 1 : ℕ) : ℝ))
                      * (data.getD i 0
                        - (((List.range (max data.length 1)).map fun (i : ℕ) =>
                            data.getD i 0).sum) / ((max data.length 1 : ℕ) : ℝ))).sum)
                    / ((max 1 (max data.length 1 - 1) : ℕ) : ℝ)))
                * ((max data.length 1 : ℕ) : ℝ) ^ (-(1/5) : ℝ))
              * ((max data.length 1 : ℕ) : ℝ)))
          * (((List.range (max data.length 1)).map fun (i : ℕ) =>
              Real.exp (-(0.5) * (((x - data.getD i 0)
                / (1.06 * Real.sqrt (max 1e-6
                    ((((List.range (max data.length 1)).map fun (i : ℕ) =>
                        (data.getD i 0
                          - (((List.range (max data.length 1)).map fun (i : ℕ) =>
                              data.getD i 0).sum) / ((max data.length 1 : ℕ) : ℝ))
                        * (data.getD i 0
                          - (((List.range (max data.length 1)).map fun (i : ℕ) =>
                              data.getD i 0).sum) / ((max data.length 1 : ℕ) : ℝ))).sum)
                      / ((max 1 (max data.length 1 - 1) : ℕ) : ℝ)))
                  * ((max data.length 1 : ℕ) : ℝ) ^ (-(1/5) : ℝ)))
                * ((x - data.getD i 0)
                / (1.06 * Real.sqrt (max 1e-6
                    ((((List.range (max data.length 1)).map fun (i : ℕ) =>
                        (data.getD i 0
                          - (((List.range (max data.length 1)).map fun (i : ℕ) =>
                              data.getD i 0).sum) / ((max data.length 1 : ℕ) : ℝ))
                        * (data.getD i 0
                          - (((List.range (max data.length 1)).map fun (i : ℕ) =>
                              data.getD i 0).sum) / ((max data.length 1 : ℕ) : ℝ))).sum)
                      / ((max 1 (max data.length 1 - 1) : ℕ) : ℝ)))
                  * ((max data.length 1 : ℕ) : ℝ) ^ (-(1/5) : ℝ)))))).sum))
          (grid.getD j 0) := by
      show (List.map _ grid).getD j 0 = _
      rw [List.getD_eq_getElem _ _ (by simpa [kde] using hj),
        List.getElem_map, List.getD_eq_getElem _ _ hj]
    rw [hmap, hn]
    simp only [list_range_map_sum, show (-(0.5) : ℝ) = -(1/2) from by norm_num,
      ← pow_two]

/-- Witness for C9 with `data = [1, 2]`, `grid = [0]`. -/
theorem claim_C9_witness :
    ([(1 : ℝ), 2] ≠ ([] : List ℝ)) ∧
      (kde [(1 : ℝ), 2] [(0 : ℝ)]).length = ([(0 : ℝ)]).length :=
  ⟨by simp, (claim_C9_kde_formula [1, 2] [0] (by simp)).1⟩

/-! ### Claim C7: the seeded jigsaw shuffle -/

/-- One call of the mulberry32 generator, on 32-bit unsigned words embedded in
`ℕ`: `s += 0x6d2b79f5; t = imul(t ^ (t >>> 15), t | 1);
t ^= t + imul(t ^ (t >>> 7), t | 61); return (t ^ (t >>> 14)) >>> 0` — the
first component is the 32-bit word whose value is `k / 2^32 ∈ [0, 1)`, the
second the updated seed state. -/
def mulberry32Next (s : ℕ) : ℕ × ℕ :=
  let s' := s + 0x6d2b79f5
  let t0 := s' % 2 ^ 32
  let t1 := ((t0 ^^^ (t0 >>> 15)) * (t0 ||| 1)) % 2 ^ 32
  let t2 := t1 ^^^ ((t1 + ((t1 ^^^ (t1 >>> 7)) * (t1 ||| 61)) % 2 ^ 32) % 2 ^ 32)
  (t2 ^^^ (t2 >>> 14), s')

/-- `identity(n) = Array.from({length: n*n}, (_, i) => i)`. -/
def identity (n : ℕ) : List ℕ := List.range (n * n)

/-- The destructuring swap `[arr[i], arr[j]] = [arr[j], arr[i]]`. -/
def listSwap (l : List ℕ) (i j : ℕ) : List ℕ :=
  (l.set i (l.getD j 0)).set j (l.getD i 0)

/-- The Fisher–Yates loop `for (i = len-1; i > 0; i--)`, indexed by the loop
variable `i`; `j = Math.floor(rnd() * (i + 1))` is exact in doubles, so it is
`k * (i + 1) / 2^32` in integers. -/
def fyLoop (state : ℕ) : ℕ → List ℕ → List ℕ
  | 0, arr => arr
  | i + 1, arr =>
    let kn := mulberry32Next state
    let j := kn.1 * (i + 1 + 1) / 2 ^ 32
    fyLoop kn.2 i (listSwap arr (i + 1) j)

/-- `arr.every((v, i) => v === i)` starting at index `k`. -/
def isIdentityFrom : ℕ → List ℕ → Bool
  | _, [] => true
  | k, v :: rest => (v == k) && isIdentityFrom (k + 1) rest

/-- `seededShuffle` from the source: Fisher–Yates over `identity(n)` driven by
mulberry32, then an unconditional de-identity swap of the first two entries. -/
def seededShuffle (n : ℕ) (seed : ℕ) : List ℕ :=
  let arr := identity n
  let res := fyLoop seed (arr.length - 1) arr
  if isIdentityFrom 0 res ∧ 1 < res.length then listSwap res 0 1 else res

theorem mulberry32Next_lt (s : ℕ) : (mulberry32Next s).1 < 2 ^ 32 := by
  simp only [mulberry32Next]
  set t1 := ((((s + 0x6d2b79f5) % 2 ^ 32) ^^^ (((s + 0x6d2b79f5) % 2 ^ 32) >>> 15))
      * (((s + 0x6d2b79f5) % 2 ^ 32) ||| 1)) % 2 ^ 32 with ht1
  have h1 : t1 < 2 ^ 32 := Nat.mod_lt _ (by norm_num)
  have h2 : t1 ^^^ ((t1 + ((t1 ^^^ (t1 >>> 7)) * (t1 ||| 61)) % 2 ^ 32) % 2 ^ 32)
      < 2 ^ 32 :=
    Nat.xor_lt_two_pow h1 (Nat.mod_lt _ (by norm_num))
  have h3 : (t1 ^^^ ((t1 + ((t1 ^^^ (t1 >>> 7)) * (t1 ||| 61)) % 2 ^ 32) % 2 ^ 32)) >>> 14
      < 2 ^ 32 := by
    calc _ ≤ _ := by rw [Nat.shiftRight_eq_div_pow]; exact Nat.div_le_self _ _
    _ < 2 ^ 32 := h2
  exact Nat.xor_lt_two_pow h2 h3

theorem cons_set_perm (t : List ℕ) (m : ℕ) (a : ℕ) (hm : m < t.length) :
    (t.getD m 0 :: t.set m a).Perm (a :: t) := by
  induction t generalizing m with
  | nil => simp at hm
  | cons b t' ih =>
    cases m with
    | zero =>
      simp only [List.getD_cons_zero, List.set_cons_zero]
      exact List.Perm.swap a b t'
    | succ m =>
      simp only [List.getD_cons_succ, List.set_cons_succ]
      have hm' : m < t'.length := by simpa using hm
      exact (List.Perm.swap b (t'.getD m 0) (t'.set m a)).trans
        ((List.Perm.cons b (ih m hm')).trans (List.Perm.swap a b t'))

theorem listSwap_perm (l : List ℕ) (i j : ℕ) (hi : i < l.length)
    (hj : j < l.length) : (listSwap l i j).Perm l := by
  induction l generalizing i j with
  | nil => simp at hi
  | cons c t ih =>
    cases i with
    | zero =>
      cases j with
      | zero => simp [listSwap]
      | succ m =>
        have hm : m < t.length := by simpa using hj
        simp only [listSwap, List.getD_cons_succ, List.getD_cons_zero,
          List.set_cons_zero, List.set_cons_succ]
        exact cons_set_perm t m c hm
    | succ m =>
      cases j with
      | zero =>
        have hm : m < t.length := by simpa using hi
        simp only [listSwap, List.getD_cons_succ, List.getD_cons_zero,
          List.set_cons_zero, List.set_cons_succ]
        exact cons_set_perm t m c hm
      | succ r =>
        have hm : m < t.length := by simpa using hi
        have hr : r < t.length := by simpa using hj
        simp only [listSwap, List.getD_cons_succ, List.set_cons_succ]
        exact List.Perm.cons c (ih m r hm hr)

theorem fyLoop_perm (i : ℕ) : ∀ (state : ℕ) (arr : List ℕ), i < arr.length →
    (fyLoop state i arr).Perm arr := by
  induction i with
  | zero => intro state arr _; exact List.Perm.refl arr
  | succ i ih =>
    intro state arr hlt
    have hk : (mulberry32Next state).1 < 2 ^ 32 := mulberry32Next_lt state
    have hj : (mulberry32Next state).1 * (i + 1 + 1) / 2 ^ 32 < i + 1 + 1 := by
      apply Nat.div_lt_of_lt_mul
      exact (Nat.mul_lt_mul_right (by omega)).mpr hk
    have hswap : (listSwap arr (i + 1) ((mulberry32Next state).1 * (i + 1 + 1) / 2 ^ 32)).Perm arr :=
      listSwap_perm arr _ _ hlt (by omega)
    have hlen : (listSwap arr (i + 1) ((mulberry32Next state).1 * (i + 1 + 1) / 2 ^ 32)).length
        = arr.length := hswap.length_eq
    have hrec := ih (mulberry32Next state).2
      (listSwap arr (i + 1) ((mulberry32Next state).1 * (i + 1 + 1) / 2 ^ 32))
      (by omega)
    exact (show fyLoop state (i + 1) arr = fyLoop (mulberry32Next state).2 i
        (listSwap arr (i + 1) ((mulberry32Next state).1 * (i + 1 + 1) / 2 ^ 32)) from rfl)
      ▸ hrec.trans hswap

theorem isIdentityFrom_iff (l : List ℕ) : ∀ k : ℕ,
    isIdentityFrom k l = true ↔ l = List.range' k l.length := by
  induction l with
  | nil => intro k; simp [isIdentityFrom]
  | cons v rest ih =>
    intro k
    rw [show isIdentityFrom k (v :: rest) = ((v == k) && isIdentityFrom (k + 1) rest)
        from rfl]
    rw [Bool.and_eq_true, beq_iff_eq, ih (k + 1)]
    rw [show (v :: rest).length = rest.length + 1 from rfl, List.range'_succ k rest.length 1]
    constructor
    · rintro ⟨rfl, h⟩
      rw [← h]
    · intro h
      injection h with h1 h2
      exact ⟨h1, h2⟩

/-- C7: for every n ≥ 1 and every seed, `seededShuffle n seed` is a
permutation of `identity n` (each of 0..n²-1 appears exactly once), and
whenever n² > 1 it is not the identity permutation. -/
theorem claim_C7_seeded_shuffle (n seed : ℕ) (hn : 1 ≤ n) :
    (seededShuffle n seed).Perm (identity n) ∧
      (1 < n * n → seededShuffle n seed ≠ identity n) := by
  have hlen_id : (identity n).length = n * n := by simp [identity]
  have hnn : 1 ≤ n * n := Nat.one_le_iff_ne_zero.mpr (by positivity)
  have hloop : (fyLoop seed ((identity n).length - 1) (identity n)).Perm (identity n) :=
    fyLoop_perm _ seed (identity n) (by omega)
  have hreslen : (fyLoop seed ((identity n).length - 1) (identity n)).length = n * n := by
    rw [hloop.length_eq, hlen_id]
  set res := fyLoop seed ((identity n).length - 1) (identity n) with hres
  have hressh : seededShuffle n seed =
      if isIdentityFrom 0 res ∧ 1 < res.length then listSwap res 0 1 else res := rfl
  by_cases hcond : (isIdentityFrom 0 res = true) ∧ 1 < res.length
  · have hid : res = List.range (n * n) := by
      have := (isIdentityFrom_iff res 0).mp hcond.1
      rw [this, hreslen, List.range_eq_range']
    have h01 : 1 < res.length := hcond.2
    constructor
    · rw [hressh, if_pos hcond]
      exact (listSwap_perm res 0 1 (by omega) h01).trans hloop
    · intro _
      rw [hressh, if_pos hcond]
      intro heq
      have hval : (listSwap res 0 1).getD 0 0 = res.getD 1 0 := by
        have hlen1 : 1 < (res.set 0 (res.getD 1 0)).length := by simpa using h01
        rw [listSwap, List.getD_eq_getElem _ _ (by simp; omega),
          List.getElem_set_ne (by norm_num) _, List.getElem_set,
          if_pos rfl, List.getD_eq_getElem _ _ h01]
      have h1 : res.getD 1 0 = 1 := by
        rw [hid, List.getD_eq_getElem _ _ (by simpa [hid] using h01)]
        simp
      have h0 : (identity n).getD 0 0 = 0 := by
        rw [identity, List.getD_eq_getElem _ _ (by simp; omega)]
        simp
      rw [heq] at hval
      rw [hval, h1] at h0
      exact one_ne_zero h0
  · constructor
    · rw [hressh, if_neg hcond]
      exact hloop
    · intro hgt heq
      apply hcond
      rw [hressh, if_neg hcond] at heq
      refine ⟨?_, by omega⟩
      rw [isIdentityFrom_iff res 0, hreslen, ← List.range_eq_range']
      rw [heq]
      rfl

/-- Witness for C7 at n = 2, seed = 7. -/
theorem claim_C7_witness :
    1 ≤ 2 ∧ (seededShuffle 2 7).Perm (identity 2) :=
  ⟨by decide, (claim_C7_seeded_shuffle 2 7 (by decide)).1⟩

/-! ### Claim C8: the Box–Muller sampler -/

/-- The `while (u === 0) u = rng();` loop: the generator is a stream of
uniform draws (every double in [0,1) is a rational); starting at position
`idx`, keep drawing until a nonzero value appears, returning it together
with the next stream position; `fuel` bounds the number of iterations. -/
def drawNonzero (rng : ℕ → ℚ) (idx : ℕ) : ℕ → Option (ℚ × ℕ)
  | 0 => none
  | fuel + 1 =>
    if rng idx = 0 then drawNonzero rng (idx + 1) fuel
    else some (rng idx, idx + 1)

/-- `randn` from the source: draw nonzero `u` then nonzero `v`, return
`sqrt(-2 * log(u)) * cos(2 * PI * v)`. -/
noncomputable def randn (rng : ℕ → ℚ) (fuel : ℕ) : Option ℝ :=
  match drawNonzero rng 0 fuel with
  | none => none
  | some (u, idx) =>
    match drawNonzero rng idx fuel with
    | none => none
    | some (v, _) =>
      some (Real.sqrt (-2 * Real.log (u : ℝ)) * Real.cos (2 * Real.pi * (v : ℝ)))

theorem drawNonzero_eq (rng : ℕ → ℚ) (i : ℕ) :
    ∀ (fuel start : ℕ), start ≤ i → (∀ m, start ≤ m → m < i → rng m = 0) →
      rng i ≠ 0 → i - start < fuel →
      drawNonzero rng start fuel = some (rng i, i + 1) := by
  intro fuel
  induction fuel with
  | zero => intro start _ _ _ hfuel; omega
  | succ fuel ih =>
    intro start hsi hzero hnz hfuel
    by_cases hstart : start = i
    · subst hstart
      rw [drawNonzero, if_neg hnz]
    · have hlt : start < i := by omega
      rw [drawNonzero, if_pos (hzero start le_rfl hlt)]
      exact ih (start + 1) (by omega) (fun m hm1 hm2 => hzero m (by omega) hm2)
        hnz (by omega)

/-- C8: for any generator stream that keeps producing nonzero values
eventually, the Box–Muller sampler terminates and returns
`sqrt(-2 ln u) * cos(2 pi v)` where `u` is the first nonzero draw and `v` the
first nonzero draw after it; in particular `u ≠ 0`, so `ln` is never applied
to 0. -/
theorem claim_C8_box_muller (rng : ℕ → ℚ)
    (h : ∀ k, ∃ i, k ≤ i ∧ rng i ≠ 0) :
    ∃ fuel i j : ℕ,
      (∀ m, m < i → rng m = 0) ∧ rng i ≠ 0 ∧
        i < j ∧ (∀ m, i < m → m < j → rng m = 0) ∧ rng j ≠ 0 ∧
        randn rng fuel =
          some (Real.sqrt (-2 * Real.log ((rng i : ℚ) : ℝ)) *
            Real.cos (2 * Real.pi * ((rng j : ℚ) : ℝ))) := by
  obtain ⟨i0, _, hi0⟩ := h 0
  have hex1 : ∃ i, rng i ≠ 0 := ⟨i0, hi0⟩
  set i := Nat.find hex1 with hidef
  have hi : rng i ≠ 0 := Nat.find_spec hex1
  have himin : ∀ m, m < i → rng m = 0 := by
    intro m hm
    by_contra hne
    exact (Nat.find_min hex1 hm) hne
  obtain ⟨j0, hj0le, hj0⟩ := h (i + 1)
  have hex2 : ∃ j, i + 1 ≤ j ∧ rng j ≠ 0 := ⟨j0, hj0le, hj0⟩
  set j := Nat.find hex2 with hjdef
  obtain ⟨hjge, hj⟩ := Nat.find_spec hex2
  have hjmin : ∀ m, i < m → m < j → rng m = 0 := by
    intro m hm1 hm2
    by_contra hne
    exact (Nat.find_min hex2 hm2) ⟨by omega, hne⟩
  refine ⟨j + 1, i, j, himin, hi, by omega, hjmin, hj, ?_⟩
  have h1 : drawNonzero rng 0 (j + 1) = some (rng i, i + 1) :=
    drawNonzero_eq rng i (j + 1) 0 (Nat.zero_le i)
      (fun m _ hm => himin m hm) hi (by omega)
  have h2 : drawNonzero rng (i + 1) (j + 1) = some (rng j, j + 1) :=
    drawNonzero_eq rng j (j + 1) (i + 1) hjge
      (fun m hm1 hm2 => hjmin m (by omega) hm2) hj (by omega)
  simp only [randn, h1, h2]

/-- Witness for C8 on the stream that yields 0 first and 1/2 afterwards. -/
theorem claim_C8_witness :
    (∀ k, ∃ i, k ≤ i ∧ (fun m => if m = 0 then (0 : ℚ) else 1/2) i ≠ 0) ∧
      ∃ fuel i j : ℕ,
        (∀ m, m < i → (fun m => if m = 0 then (0 : ℚ) else 1/2) m = 0) ∧
          (fun m => if m = 0 then (0 : ℚ) else 1/2) i ≠ 0 ∧
          i < j ∧
          (∀ m, i < m → m < j →
            (fun m => if m = 0 then (0 : ℚ) else 1/2) m = 0) ∧
          (fun m => if m = 0 then (0 : ℚ) else 1/2) j ≠ 0 ∧
          randn (fun m => if m = 0 then (0 : ℚ) else 1/2) fuel =
            some (Real.sqrt (-2 * Real.log
                (((fun m => if m = 0 then (0 : ℚ) else 1/2) i : ℚ) : ℝ)) *
              Real.cos (2 * Real.pi *
                (((fun m => if m = 0 then (0 : ℚ) else 1/2) j : ℚ) : ℝ))) :=
  have hgen : ∀ k, ∃ i, k ≤ i ∧ (fun m => if m = 0 then (0 : ℚ) else 1/2) i ≠ 0 :=
    fun k => ⟨k + 1, Nat.le_succ k, by norm_num⟩
  ⟨hgen, claim_C8_box_muller (fun m => if m = 0 then (0 : ℚ) else 1/2) hgen⟩

end Remotion
